import Mathlib

/-!
Verification of the cloud-resource registry with Merkle-tree fingerprinting
(src/dsa_cs.py).

The embedding mirrors the Python source.  The registry is backed by
`queue.PriorityQueue`, which wraps CPython's `heapq` over a plain list; the
raw backing list (`self.resources.queue`) is directly observable — both
`build_merkle_tree` and `verify_merkle_tree` enumerate it — so the heap
algorithms (`heapq.heappush` / `heapq.heappop` with their `_siftdown` and
`_siftup` helpers) are embedded instruction by instruction.  Loops are
translated as structural recursion on an explicit iteration bound (`fuel`);
each loop's bound is chosen so that the fuel can never run out on the
arguments the program supplies, which is proved where it matters.

The SHA-256 digest (`hashlib.sha256(...).hexdigest()`) is an external
library primitive; every definition that hashes is parameterized by an
arbitrary digest function `hash : String → String`, and theorems quantify
over it.
-/

/-- Mirrors the Python class `CloudResource`: a named, prioritized record with
an allocation flag (`__init__` defaults `allocated=False`). -/
structure CloudResource where
  name : String
  priority : Int
  allocated : Bool
deriving DecidableEq, Repr, Inhabited

/-- `CloudResource.__lt__`: the comparison `heapq` uses; priority only. -/
def rlt (a b : CloudResource) : Bool := decide (a.priority < b.priority)

/-- Priority comparison as a relation, for stating sortedness. -/
def rle (a b : CloudResource) : Prop := a.priority ≤ b.priority

/-- The `heapq` parent index `(pos - 1) >> 1`. -/
def par (i : Nat) : Nat := (i - 1) / 2

/-- Python list indexing `heap[i]` (every use in the source is in bounds). -/
def nthR (l : List CloudResource) (i : Nat) : CloudResource := l.getD i default

/-- The priority stored at index `i`. -/
def prio (l : List CloudResource) (i : Nat) : Int := (nthR l i).priority

/-- The loop of `heapq._siftdown`: bubble the pending `newitem` up from `pos`
toward `startpos`, shifting each larger parent down into the hole.  `pos`
strictly decreases, so `fuel = pos` iterations always suffice. -/
def siftdownLoop : Nat → List CloudResource → Nat → Nat → CloudResource →
    List CloudResource × Nat
  | 0, heap, _, pos, _ => (heap, pos)
  | fuel + 1, heap, startpos, pos, newitem =>
    if startpos < pos then
      if rlt newitem (nthR heap (par pos)) then
        siftdownLoop fuel (heap.set pos (nthR heap (par pos))) startpos (par pos) newitem
      else (heap, pos)
    else (heap, pos)

/-- `heapq._siftdown(heap, startpos, pos)`: save `newitem = heap[pos]`, run the
bubble-up loop, and write `newitem` into the final hole. -/
def siftdown (heap : List CloudResource) (startpos pos : Nat) : List CloudResource :=
  (siftdownLoop pos heap startpos pos (nthR heap pos)).1.set
    (siftdownLoop pos heap startpos pos (nthR heap pos)).2 (nthR heap pos)

/-- The child selection inside `heapq._siftup`'s loop: starting from the left
child `childpos`, move to the right sibling when it exists and the left child
is not smaller (`not heap[childpos] < heap[rightpos]`). -/
def pickChild (heap : List CloudResource) (childpos : Nat) : Nat :=
  if childpos + 1 < heap.length ∧ rlt (nthR heap childpos) (nthR heap (childpos + 1)) = false
  then childpos + 1 else childpos

/-- The loop of `heapq._siftup`: move the hole at `pos` down along the
smaller-child path until it reaches a leaf, copying each chosen child up.
`pos` strictly increases and stays below `heap.length`, so
`fuel = heap.length` iterations always suffice. -/
def siftupLoop : Nat → List CloudResource → Nat → List CloudResource × Nat
  | 0, heap, pos => (heap, pos)
  | fuel + 1, heap, pos =>
    if 2 * pos + 1 < heap.length then
      siftupLoop fuel (heap.set pos (nthR heap (pickChild heap (2 * pos + 1))))
        (pickChild heap (2 * pos + 1))
    else (heap, pos)

/-- `heapq._siftup(heap, pos)`: save `newitem = heap[pos]`, run the hole to a
leaf, write `newitem` there, then `_siftdown(heap, pos, finalpos)`. -/
def siftup (heap : List CloudResource) (pos : Nat) : List CloudResource :=
  siftdown ((siftupLoop heap.length heap pos).1.set
    (siftupLoop heap.length heap pos).2 (nthR heap pos)) pos
    (siftupLoop heap.length heap pos).2

/-- `heapq.heappush`: append, then `_siftdown(heap, 0, len(heap)-1)`. -/
def heappush (heap : List CloudResource) (item : CloudResource) : List CloudResource :=
  siftdown (heap ++ [item]) 0 (heap ++ [item]).length.pred

/-- `heapq.heappop`: `lastelt = heap.pop()` (raises on empty, modeled as
`none`); if elements remain, return `heap[0]` after moving `lastelt` to the
root and running `_siftup(heap, 0)`. -/
def heappop (heap : List CloudResource) : Option (CloudResource × List CloudResource) :=
  match heap.getLast? with
  | none => none
  | some lastelt =>
    if heap.dropLast.isEmpty then some (lastelt, heap.dropLast)
    else some (nthR heap.dropLast 0, siftup (heap.dropLast.set 0 lastelt) 0)

/-- `CloudResourceAllocator.allocate_resource`: if the record's `allocated`
flag is not set, put it on the queue and set the flag (the queued record is
the same mutated object, hence carries `allocated = true`); otherwise do
nothing.  The Python method returns `None` in both cases. -/
def allocate_resource (heap : List CloudResource) (resource : CloudResource) :
    List CloudResource :=
  if resource.allocated then heap
  else heappush heap { resource with allocated := true }

/-- The drain in `CloudResourceAllocator.deallocate_resource`:
`while not self.resources.empty(): resource = self.resources.get()`, keeping
the matching records (every one of them overwrites `deallocated_resource`)
separate from `resources_copy`.  Pops in pop order; one pop per iteration, so
`fuel = heap.length` iterations drain the queue completely. -/
def deallocDrain : Nat → List CloudResource → String → List CloudResource × List CloudResource
  | 0, _, _ => ([], [])
  | fuel + 1, heap, rname =>
    match heappop heap with
    | none => ([], [])
    | some (resource, rest) =>
      match deallocDrain fuel rest rname with
      | (m, c) =>
        if resource.name = rname then (resource :: m, c) else (m, resource :: c)

/-- `CloudResourceAllocator.deallocate_resource(name)`: drain the whole queue,
re-`put` every non-matching record (in pop order), clear the `allocated` flag
of the last matching record popped (the value `deallocated_resource` ends
with) and return it; `none` when no record matched. -/
def deallocate_resource (heap : List CloudResource) (rname : String) :
    Option CloudResource × List CloudResource :=
  ((deallocDrain heap.length heap rname).1.getLast?.map
      (fun r => { r with allocated := false }),
    (deallocDrain heap.length heap rname).2.foldl heappush [])

/-- Analysis helper: the sequence of records produced by popping the queue
until it is empty (the pop order of the drain loop above). -/
def drainAux : Nat → List CloudResource → List CloudResource
  | 0, _ => []
  | fuel + 1, heap =>
    match heappop heap with
    | none => []
    | some (r, rest) => r :: drainAux fuel rest

/-- Pop order of a whole queue. -/
def drainList (heap : List CloudResource) : List CloudResource :=
  drainAux heap.length heap

/-- The inner `for j in range(0, i, 2)` of `MerkleTree.build_tree`: each pair
`tree[j], tree[j+1]` becomes `hash(tree[j] + tree[j+1])`; a final unpaired
`tree[j]` is appended unchanged.  `j` advances by 2 while `j < i`, so
`fuel = i` iterations always suffice. -/
def collapseCodeAux (hash : String → String) (tree : List String) (i : Nat) :
    Nat → Nat → List String
  | 0, _ => []
  | fuel + 1, j =>
    if j < i then
      (if j + 1 < i then [hash (tree.getD j "" ++ tree.getD (j + 1) "")]
       else [tree.getD j ""]) ++ collapseCodeAux hash tree i fuel (j + 2)
    else []

/-- The outer `while i > 1` of `MerkleTree.build_tree`: collapse the current
level until one node remains.  Each iteration at least halves the level, so
`fuel = len(data)` iterations always suffice.  The final `tree[0]` raises
`IndexError` on an empty level, modeled by `head?` returning `none`. -/
def buildLoop : Nat → (String → String) → List String → Option String
  | 0, _, tree => tree.head?
  | fuel + 1, hash, tree =>
    if tree.length > 1 then
      buildLoop fuel hash (collapseCodeAux hash tree tree.length tree.length 0)
    else tree.head?

/-- `MerkleTree.build_tree(data)`: hash every item to form the leaf level,
then run the collapse loop (`i` starts at `len(data)`, which equals the leaf
count) and return `tree[0]`. -/
def build_tree (hash : String → String) (data : List String) : Option String :=
  buildLoop data.length hash (data.map hash)

/-- Written from the spec (§4.2): collapse one level by "scanning left to
right in pairs: for each adjacent pair, the next-level node is
`digest(left || right)`; if the level has an odd count, the final unpaired
node is carried forward unchanged, not re-hashed". -/
def specCollapse (hash : String → String) : List String → List String
  | [] => []
  | [x] => [x]
  | x :: y :: rest => hash (x ++ y) :: specCollapse hash rest

/-- Written from the spec (§4.2): "Repeat until exactly one node remains —
that is the root."  Empty input has no defined root. -/
def specReduce : Nat → (String → String) → List String → Option String
  | _, _, [] => none
  | _, _, [x] => some x
  | 0, _, _ :: _ :: _ => none
  | fuel + 1, hash, x :: y :: rest => specReduce fuel hash (specCollapse hash (x :: y :: rest))

/-- Written from the spec (§4.2): "hash every item to form the leaf level",
then reduce. -/
def specBuild (hash : String → String) (items : List String) : Option String :=
  specReduce items.length hash (items.map hash)

/-- State of a `CloudResourceAllocator`: the priority queue's backing list and
the stored Merkle snapshot (the constructor sets `merkle_tree = None`).  A
`MerkleTree` object also keeps the leaf data it was built from, but only its
root (`self.tree`) is ever read, so the snapshot is modeled by its root. -/
structure AllocatorState where
  queue : List CloudResource
  merkle : Option String
deriving DecidableEq, Repr, Inhabited

/-- A freshly constructed `CloudResourceAllocator()`. -/
def initialState : AllocatorState := { queue := [], merkle := none }

/-- `snapshotOrder` of the spec: the enumeration
`[resource.name for resource in self.resources.queue]` used as Merkle leaves. -/
def snapshotOrder (s : AllocatorState) : List String :=
  s.queue.map (fun r => r.name)

/-- `allocate_resource` lifted to allocator state. -/
def op_allocate (s : AllocatorState) (r : CloudResource) : AllocatorState :=
  { s with queue := allocate_resource s.queue r }

/-- `deallocate_resource` lifted to allocator state. -/
def op_deallocate (s : AllocatorState) (rname : String) :
    Option CloudResource × AllocatorState :=
  match deallocate_resource s.queue rname with
  | (r, q) => (r, { s with queue := q })

/-- The menu's allocate path (`main`, choice 1): build a fresh
`CloudResource(name, priority)` — `allocated` defaults to `False` — and pass
it to `allocate_resource`. -/
def menuAllocate (s : AllocatorState) (rname : String) (p : Int) : AllocatorState :=
  op_allocate s { name := rname, priority := p, allocated := false }

/-- `CloudResourceAllocator.build_merkle_tree`: construct
`MerkleTree(resource_names)`; its constructor runs `build_tree`, which raises
`IndexError` when the registry is empty (modeled as `none`). -/
def build_merkle_tree (hash : String → String) (s : AllocatorState) :
    Option AllocatorState :=
  (build_tree hash (snapshotOrder s)).map (fun root => { s with merkle := some root })

/-- `CloudResourceAllocator.verify_merkle_tree`: when no tree was built,
print "Merkle tree not built." and return `False`; otherwise compare the
stored root with `build_tree` recomputed over the current enumeration (which
raises, modeled as `none`, if the registry is now empty).  The first
component models the printed output, the second the returned value. -/
def verify_merkle_tree (hash : String → String) (s : AllocatorState) :
    List String × Option Bool :=
  match s.merkle with
  | none => (["Merkle tree not built."], some false)
  | some root =>
    ([], (build_tree hash (snapshotOrder s)).map (fun r => root == r))

/-- `CloudResourceAllocator.get_allocated_resources`. -/
def get_allocated_resources (s : AllocatorState) : List String :=
  (s.queue.filter (fun r => r.allocated)).map (fun r => r.name)

/-- `CloudResourceAllocator.get_resource_by_name`: linear scan, first match. -/
def get_resource_by_name (s : AllocatorState) (rname : String) :
    Option CloudResource :=
  s.queue.find? (fun r => r.name == rname)

/-- Queue states reachable by any sequence of allocate/deallocate operations
from a fresh allocator. -/
inductive ReachableQueue : List CloudResource → Prop where
  | nil : ReachableQueue []
  | alloc {q : List CloudResource} (hq : ReachableQueue q) (r : CloudResource) :
      ReachableQueue (allocate_resource q r)
  | dealloc {q : List CloudResource} (hq : ReachableQueue q) (rname : String) :
      ReachableQueue (deallocate_resource q rname).2

/-- The binary min-heap invariant of `heapq`: every non-root entry is at least
its parent. -/
def IsHeap (l : List CloudResource) : Prop :=
  ∀ i, 0 < i → i < l.length → prio l (par i) ≤ prio l i

/-- The heap invariant everywhere except at the edges touching a hole `p`. -/
def HeapExcept (l : List CloudResource) (p : Nat) : Prop :=
  ∀ i, 0 < i → i < l.length → i ≠ p → par i ≠ p → prio l (par i) ≤ prio l i

/-- Every child of `p` is at least `x`. -/
def ChildrenGE (l : List CloudResource) (p : Nat) (x : Int) : Prop :=
  ∀ c, 0 < c → c < l.length → par c = p → x ≤ prio l c

/-! ### Index and multiset toolkit -/

theorem par_lt {i : Nat} (h : 0 < i) : par i < i := by
  unfold par; omega

theorem par_child_gt {p c : Nat} (hc : 0 < c) (h : par c = p) : p < c := by
  unfold par at h; omega

theorem par_child_cases {p c : Nat} (hc : 0 < c) (h : par c = p) :
    c = 2 * p + 1 ∨ c = 2 * p + 2 := by
  unfold par at h; omega

theorem nthR_set_self : ∀ (l : List CloudResource) (i : Nat) (v : CloudResource),
    i < l.length → nthR (l.set i v) i = v := by
  intro l
  induction l with
  | nil => intro i v h; simp at h
  | cons a t ih =>
    intro i v h
    cases i with
    | zero => simp [nthR]
    | succ i => simpa [nthR] using ih i v (by simpa using h)

theorem nthR_set_ne : ∀ (l : List CloudResource) (i j : Nat) (v : CloudResource),
    i ≠ j → nthR (l.set i v) j = nthR l j := by
  intro l
  induction l with
  | nil => intro i j v _; cases i <;> simp [nthR]
  | cons a t ih =>
    intro i j v hij
    cases i with
    | zero =>
      cases j with
      | zero => exact absurd rfl hij
      | succ j => simp [nthR]
    | succ i =>
      cases j with
      | zero => simp [nthR]
      | succ j => simpa [nthR] using ih i j v (by omega)

theorem set_nthR_self : ∀ (l : List CloudResource) (i : Nat),
    i < l.length → l.set i (nthR l i) = l := by
  intro l
  induction l with
  | nil => intro i h; simp at h
  | cons a t ih =>
    intro i h
    cases i with
    | zero => simp [nthR]
    | succ i => simpa [nthR] using ih i (by simpa using h)

theorem nthR_append_left : ∀ (l l₂ : List CloudResource) (i : Nat),
    i < l.length → nthR (l ++ l₂) i = nthR l i := by
  intro l l₂
  induction l with
  | nil => intro i h; simp at h
  | cons a t ih =>
    intro i h
    cases i with
    | zero => simp [nthR]
    | succ i => simpa [nthR] using ih i (by simpa using h)

theorem nthR_append_self : ∀ (l : List CloudResource) (x : CloudResource),
    nthR (l ++ [x]) l.length = x := by
  intro l x
  induction l with
  | nil => simp [nthR]
  | cons a t ih => simpa [nthR] using ih

theorem nthR_dropLast : ∀ (l : List CloudResource) (i : Nat),
    i + 1 < l.length → nthR l.dropLast i = nthR l i := by
  intro l
  induction l with
  | nil => intro i h; simp at h
  | cons a t ih =>
    intro i h
    cases t with
    | nil => simp at h
    | cons b u =>
      cases i with
      | zero => simp [nthR]
      | succ i =>
        have := ih i (by simpa using h)
        simpa [nthR] using this

theorem nthR_mem : ∀ (l : List CloudResource) (i : Nat),
    i < l.length → nthR l i ∈ l := by
  intro l
  induction l with
  | nil => intro i h; simp at h
  | cons a t ih =>
    intro i h
    cases i with
    | zero => simp [nthR]
    | succ i =>
      have := ih i (by simpa using h)
      simp [nthR] at this ⊢
      right; exact this

theorem mem_nthR : ∀ (l : List CloudResource) (x : CloudResource),
    x ∈ l → ∃ i, i < l.length ∧ nthR l i = x := by
  intro l
  induction l with
  | nil => intro x h; simp at h
  | cons a t ih =>
    intro x h
    rcases List.mem_cons.mp h with h | h
    · exact ⟨0, by simp [nthR, h]⟩
    · obtain ⟨i, hi, hx⟩ := ih x h
      exact ⟨i + 1, by simpa using hi, by simpa [nthR] using hx⟩

theorem coe_set_add : ∀ (l : List CloudResource) (i : Nat) (v : CloudResource),
    i < l.length →
    ((l.set i v : List CloudResource) : Multiset CloudResource) + {nthR l i}
      = (l : Multiset CloudResource) + {v} := by
  intro l
  induction l with
  | nil => intro i v h; simp at h
  | cons a t ih =>
    intro i v h
    cases i with
    | zero =>
      show ((v :: t : List CloudResource) : Multiset CloudResource) + {a} = _
      simp only [nthR, ← Multiset.cons_coe, ← Multiset.singleton_add]
      abel
    | succ i =>
      have ih' := ih i v (by simpa using h)
      simp only [List.set_cons_succ, nthR, List.getD_cons_succ] at ih' ⊢
      rw [← Multiset.cons_coe, ← Multiset.cons_coe, ← Multiset.singleton_add,
        ← Multiset.singleton_add, add_assoc, add_assoc]
      rw [ih']

theorem prio_set_self (l : List CloudResource) (i : Nat) (v : CloudResource)
    (h : i < l.length) : prio (l.set i v) i = v.priority := by
  simp [prio, nthR_set_self l i v h]

theorem prio_set_ne (l : List CloudResource) (i j : Nat) (v : CloudResource)
    (h : i ≠ j) : prio (l.set i v) j = prio l j := by
  simp [prio, nthR_set_ne l i j v h]

/-! ### Correctness of the sift loops -/

theorem set_hole_isHeap (heap : List CloudResource) (pos : Nat) (v : CloudResource)
    (hlen : pos < heap.length) (h1 : HeapExcept heap pos)
    (hstop : 0 < pos → prio heap (par pos) ≤ v.priority)
    (h3 : ChildrenGE heap pos v.priority) :
    IsHeap (heap.set pos v) := by
  intro i hi hilen
  rw [List.length_set] at hilen
  by_cases hip : i = pos
  · subst hip
    have hpar : par i ≠ i := Nat.ne_of_lt (par_lt hi)
    rw [prio_set_self heap i v hilen,
      prio_set_ne heap i (par i) v (fun h => hpar h.symm)]
    exact hstop hi
  · by_cases hpp : par i = pos
    · rw [prio_set_ne heap pos i v (fun h => hip h.symm), hpp,
        prio_set_self heap pos v hlen]
      exact h3 i hi hilen hpp
    · rw [prio_set_ne heap pos i v (fun h => hip h.symm),
        prio_set_ne heap pos (par i) v (fun h => hpp h.symm)]
      exact h1 i hi hilen hip hpp

theorem siftdownLoop_perm :
    ∀ (fuel pos : Nat) (heap : List CloudResource) (v : CloudResource),
      pos < heap.length →
      (siftdownLoop fuel heap 0 pos v).2 < (siftdownLoop fuel heap 0 pos v).1.length ∧
      (siftdownLoop fuel heap 0 pos v).1.length = heap.length ∧
      (((siftdownLoop fuel heap 0 pos v).1.set (siftdownLoop fuel heap 0 pos v).2 v :
        List CloudResource) : Multiset CloudResource)
        = ((heap.set pos v : List CloudResource) : Multiset CloudResource) := by
  intro fuel
  induction fuel with
  | zero =>
    intro pos heap v h
    exact ⟨h, rfl, rfl⟩
  | succ fuel ih =>
    intro pos heap v h
    by_cases h0 : 0 < pos
    · rw [siftdownLoop, if_pos h0]
      by_cases hc : rlt v (nthR heap (par pos)) = true
      · rw [if_pos hc]
        have hplt : par pos < pos := par_lt h0
        have hlen' : par pos < (heap.set pos (nthR heap (par pos))).length := by
          rw [List.length_set]; omega
        obtain ⟨a, b, c⟩ := ih (par pos) (heap.set pos (nthR heap (par pos))) v hlen'
        refine ⟨a, by rw [b, List.length_set], ?_⟩
        rw [c]
        have e2 : (((heap.set pos (nthR heap (par pos))).set (par pos) v :
              List CloudResource) : Multiset CloudResource)
            + {nthR (heap.set pos (nthR heap (par pos))) (par pos)}
            = ((heap.set pos (nthR heap (par pos)) : List CloudResource) :
                Multiset CloudResource) + {v} :=
          coe_set_add _ (par pos) v hlen'
        rw [nthR_set_ne heap pos (par pos) _ (Nat.ne_of_gt hplt)] at e2
        have e3 : ((heap.set pos (nthR heap (par pos)) : List CloudResource) :
              Multiset CloudResource) + {nthR heap pos}
            = (heap : Multiset CloudResource) + {nthR heap (par pos)} :=
          coe_set_add heap pos _ h
        have e4 : ((heap.set pos v : List CloudResource) : Multiset CloudResource)
            + {nthR heap pos} = (heap : Multiset CloudResource) + {v} :=
          coe_set_add heap pos v h
        have h5 : (((heap.set pos (nthR heap (par pos))).set (par pos) v :
              List CloudResource) : Multiset CloudResource) + {nthR heap pos}
              + {nthR heap (par pos)}
            = ((heap : Multiset CloudResource) + {v}) + {nthR heap (par pos)} := by
          calc (((heap.set pos (nthR heap (par pos))).set (par pos) v :
                List CloudResource) : Multiset CloudResource) + {nthR heap pos}
                + {nthR heap (par pos)}
              = ((((heap.set pos (nthR heap (par pos))).set (par pos) v :
                  List CloudResource) : Multiset CloudResource)
                  + {nthR heap (par pos)}) + {nthR heap pos} := by abel
            _ = (((heap.set pos (nthR heap (par pos)) : List CloudResource) :
                  Multiset CloudResource) + {v}) + {nthR heap pos} := by rw [e2]
            _ = (((heap.set pos (nthR heap (par pos)) : List CloudResource) :
                  Multiset CloudResource) + {nthR heap pos}) + {v} := by abel
            _ = ((heap : Multiset CloudResource) + {nthR heap (par pos)}) + {v} := by
                  rw [e3]
            _ = ((heap : Multiset CloudResource) + {v}) + {nthR heap (par pos)} := by
                  abel
        have h6 := add_right_cancel h5
        rw [← e4] at h6
        exact add_right_cancel h6
      · rw [if_neg hc]
        exact ⟨h, rfl, rfl⟩
    · have hz : pos = 0 := by omega
      subst hz
      rw [siftdownLoop, if_neg (by omega)]
      exact ⟨h, rfl, rfl⟩

theorem siftdownLoop_heap :
    ∀ (fuel pos : Nat) (heap : List CloudResource) (v : CloudResource),
      pos ≤ fuel → pos < heap.length →
      HeapExcept heap pos →
      (0 < pos → ChildrenGE heap pos (prio heap (par pos))) →
      ChildrenGE heap pos v.priority →
      IsHeap ((siftdownLoop fuel heap 0 pos v).1.set (siftdownLoop fuel heap 0 pos v).2 v) := by
  intro fuel
  induction fuel with
  | zero =>
    intro pos heap v hf h h1 _h2 h3
    have hz : pos = 0 := by omega
    subst hz
    exact set_hole_isHeap heap 0 v h h1 (fun h0 => absurd h0 (by omega)) h3
  | succ fuel ih =>
    intro pos heap v hf h h1 h2 h3
    by_cases h0 : 0 < pos
    · rw [siftdownLoop, if_pos h0]
      have hplt : par pos < pos := par_lt h0
      by_cases hc : rlt v (nthR heap (par pos)) = true
      · rw [if_pos hc]
        have hvlt : v.priority < prio heap (par pos) := by
          simpa [rlt, prio] using hc
        have hlen' : par pos < (heap.set pos (nthR heap (par pos))).length := by
          rw [List.length_set]; omega
        refine ih (par pos) (heap.set pos (nthR heap (par pos))) v (by omega) hlen'
          ?_ ?_ ?_
        · -- HeapExcept of the shifted array at the new hole
          intro i hi hilen hine hparne
          rw [List.length_set] at hilen
          by_cases hip : i = pos
          · exact absurd (by rw [hip]) hparne
          · by_cases hpip : par i = pos
            · rw [hpip, prio_set_self heap pos _ h,
                prio_set_ne heap pos i _ (fun e => hip e.symm)]
              exact h2 h0 i hi hilen hpip
            · rw [prio_set_ne heap pos i _ (fun e => hip e.symm),
                prio_set_ne heap pos (par i) _ (fun e => hpip e.symm)]
              exact h1 i hi hilen hip hpip
        · -- grandparent bound at the new hole
          intro hpp0 c hc0 hclen hparc
          rw [List.length_set] at hclen
          have hparpp : par (par pos) < par pos := par_lt hpp0
          have hparpp_ne : par (par pos) ≠ pos := by omega
          rw [prio_set_ne heap pos (par (par pos)) _ (fun e => hparpp_ne e.symm)]
          by_cases hcp : c = pos
          · rw [hcp, prio_set_self heap pos _ h]
            exact h1 (par pos) hpp0 (by omega) (by omega) hparpp_ne
          · rw [prio_set_ne heap pos c _ (fun e => hcp e.symm)]
            have hparc_ne : par c ≠ pos := by rw [hparc]; omega
            have step1 : prio heap (par (par pos)) ≤ prio heap (par pos) :=
              h1 (par pos) hpp0 (by omega) (by omega) hparpp_ne
            have step2 : prio heap (par pos) ≤ prio heap c := by
              have := h1 c hc0 hclen hcp hparc_ne
              rwa [hparc] at this
            exact le_trans step1 step2
        · -- pending value is below every child of the new hole
          intro c hc0 hclen hparc
          rw [List.length_set] at hclen
          by_cases hcp : c = pos
          · rw [hcp, prio_set_self heap pos _ h]
            exact le_of_lt hvlt
          · rw [prio_set_ne heap pos c _ (fun e => hcp e.symm)]
            have hparc_ne : par c ≠ pos := by rw [hparc]; omega
            have step2 : prio heap (par pos) ≤ prio heap c := by
              have := h1 c hc0 hclen hcp hparc_ne
              rwa [hparc] at this
            exact le_trans (le_of_lt hvlt) step2
      · rw [if_neg hc]
        have hstop : prio heap (par pos) ≤ v.priority := by
          have : ¬ v.priority < prio heap (par pos) := by
            simpa [rlt, prio] using hc
          omega
        exact set_hole_isHeap heap pos v h h1 (fun _ => hstop) h3
    · have hz : pos = 0 := by omega
      subst hz
      rw [siftdownLoop, if_neg (by omega)]
      exact set_hole_isHeap heap 0 v h h1 (fun h0 => absurd h0 (by omega)) h3

theorem set_set_coe (heap : List CloudResource) (pos q : Nat) (v : CloudResource)
    (hpos : pos < heap.length) (hq : q < heap.length) (hne : pos ≠ q) :
    (((heap.set pos (nthR heap q)).set q v : List CloudResource) : Multiset CloudResource)
      = ((heap.set pos v : List CloudResource) : Multiset CloudResource) := by
  have e2 : (((heap.set pos (nthR heap q)).set q v : List CloudResource) :
        Multiset CloudResource) + {nthR (heap.set pos (nthR heap q)) q}
      = ((heap.set pos (nthR heap q) : List CloudResource) : Multiset CloudResource)
        + {v} :=
    coe_set_add _ q v (by rw [List.length_set]; exact hq)
  rw [nthR_set_ne heap pos q _ hne] at e2
  have e3 : ((heap.set pos (nthR heap q) : List CloudResource) :
        Multiset CloudResource) + {nthR heap pos}
      = (heap : Multiset CloudResource) + {nthR heap q} :=
    coe_set_add heap pos _ hpos
  have e4 : ((heap.set pos v : List CloudResource) : Multiset CloudResource)
      + {nthR heap pos} = (heap : Multiset CloudResource) + {v} :=
    coe_set_add heap pos v hpos
  have h5 : (((heap.set pos (nthR heap q)).set q v : List CloudResource) :
        Multiset CloudResource) + {nthR heap pos} + {nthR heap q}
      = ((heap : Multiset CloudResource) + {v}) + {nthR heap q} := by
    calc (((heap.set pos (nthR heap q)).set q v : List CloudResource) :
          Multiset CloudResource) + {nthR heap pos} + {nthR heap q}
        = ((((heap.set pos (nthR heap q)).set q v : List CloudResource) :
            Multiset CloudResource) + {nthR heap q}) + {nthR heap pos} := by abel
      _ = (((heap.set pos (nthR heap q) : List CloudResource) :
            Multiset CloudResource) + {v}) + {nthR heap pos} := by rw [e2]
      _ = (((heap.set pos (nthR heap q) : List CloudResource) :
            Multiset CloudResource) + {nthR heap pos}) + {v} := by abel
      _ = ((heap : Multiset CloudResource) + {nthR heap q}) + {v} := by rw [e3]
      _ = ((heap : Multiset CloudResource) + {v}) + {nthR heap q} := by abel
  have h6 := add_right_cancel h5
  rw [← e4] at h6
  exact add_right_cancel h6

theorem pickChild_bounds (heap : List CloudResource) (c : Nat) (hc : c < heap.length) :
    c ≤ pickChild heap c ∧ pickChild heap c ≤ c + 1 ∧ pickChild heap c < heap.length := by
  unfold pickChild
  split
  · next hcond => exact ⟨by omega, by omega, hcond.1⟩
  · exact ⟨le_refl c, by omega, hc⟩

theorem pickChild_min (heap : List CloudResource) (c : Nat) (hc : c < heap.length) :
    ∀ s, (s = c ∨ s = c + 1) → s < heap.length →
      prio heap (pickChild heap c) ≤ prio heap s := by
  intro s hs hslen
  unfold pickChild
  split
  · next hcond =>
    have hnl : ¬ (nthR heap c).priority < (nthR heap (c + 1)).priority := by
      simpa [rlt] using hcond.2
    rcases hs with h1 | h1
    · rw [h1]; simp only [prio]; omega
    · rw [h1]
  · next hcond =>
    rcases hs with h1 | h1
    · rw [h1]
    · rw [h1]
      have hlt : (nthR heap c).priority < (nthR heap (c + 1)).priority := by
        by_cases hb : rlt (nthR heap c) (nthR heap (c + 1)) = true
        · simpa [rlt] using hb
        · have hbf : rlt (nthR heap c) (nthR heap (c + 1)) = false :=
            Bool.eq_false_iff.mpr hb
          exact absurd ⟨h1 ▸ hslen, hbf⟩ hcond
      simp only [prio]; omega

theorem siftupLoop_perm :
    ∀ (fuel pos : Nat) (heap : List CloudResource), pos < heap.length →
      (siftupLoop fuel heap pos).2 < (siftupLoop fuel heap pos).1.length ∧
      (siftupLoop fuel heap pos).1.length = heap.length ∧
      ∀ v, (((siftupLoop fuel heap pos).1.set (siftupLoop fuel heap pos).2 v :
        List CloudResource) : Multiset CloudResource)
        = ((heap.set pos v : List CloudResource) : Multiset CloudResource) := by
  intro fuel
  induction fuel with
  | zero =>
    intro pos heap h
    exact ⟨h, rfl, fun v => rfl⟩
  | succ fuel ih =>
    intro pos heap h
    rw [siftupLoop]
    by_cases hcond : 2 * pos + 1 < heap.length
    · rw [if_pos hcond]
      obtain ⟨hb1, hb2, hb3⟩ := pickChild_bounds heap (2 * pos + 1) hcond
      have hmne : pos ≠ pickChild heap (2 * pos + 1) := by omega
      have hlen' : pickChild heap (2 * pos + 1)
          < (heap.set pos (nthR heap (pickChild heap (2 * pos + 1)))).length := by
        rw [List.length_set]; exact hb3
      obtain ⟨a, b, c⟩ := ih (pickChild heap (2 * pos + 1))
        (heap.set pos (nthR heap (pickChild heap (2 * pos + 1)))) hlen'
      refine ⟨a, by rw [b, List.length_set], fun v => ?_⟩
      rw [c v]
      exact set_set_coe heap pos (pickChild heap (2 * pos + 1)) v h hb3 hmne
    · rw [if_neg hcond]
      exact ⟨h, rfl, fun v => rfl⟩

theorem siftupLoop_heap :
    ∀ (fuel pos : Nat) (heap : List CloudResource),
      heap.length ≤ fuel + pos → pos < heap.length →
      HeapExcept heap pos →
      (0 < pos → ChildrenGE heap pos (prio heap (par pos))) →
      heap.length ≤ 2 * (siftupLoop fuel heap pos).2 + 1 ∧
      HeapExcept (siftupLoop fuel heap pos).1 (siftupLoop fuel heap pos).2 := by
  intro fuel
  induction fuel with
  | zero =>
    intro pos heap hfuel h _h1 _h2
    omega
  | succ fuel ih =>
    intro pos heap hfuel h h1 h2
    rw [siftupLoop]
    by_cases hcond : 2 * pos + 1 < heap.length
    · rw [if_pos hcond]
      obtain ⟨hb1, hb2, hb3⟩ := pickChild_bounds heap (2 * pos + 1) hcond
      have hm0 : 0 < pickChild heap (2 * pos + 1) := by omega
      have hmgt : pos < pickChild heap (2 * pos + 1) := by omega
      have hparm : par (pickChild heap (2 * pos + 1)) = pos := by
        unfold par; omega
      have hmin := pickChild_min heap (2 * pos + 1) hcond
      have hlen' : pickChild heap (2 * pos + 1)
          < (heap.set pos (nthR heap (pickChild heap (2 * pos + 1)))).length := by
        rw [List.length_set]; exact hb3
      have hfuel' : (heap.set pos (nthR heap (pickChild heap (2 * pos + 1)))).length
          ≤ fuel + pickChild heap (2 * pos + 1) := by
        rw [List.length_set]; omega
      refine (ih (pickChild heap (2 * pos + 1))
        (heap.set pos (nthR heap (pickChild heap (2 * pos + 1)))) hfuel' hlen'
        ?_ ?_).imp (fun hle => by rwa [List.length_set] at hle) (fun he => he)
      · -- HeapExcept of the shifted array at the moved hole
        intro i hi hilen hine hparne
        rw [List.length_set] at hilen
        by_cases hip : i = pos
        · have hpos0 : 0 < pos := by omega
          rw [hip, prio_set_self heap pos _ h]
          have hppne : par pos ≠ pos := Nat.ne_of_lt (par_lt hpos0)
          rw [prio_set_ne heap pos (par pos) _ (fun e => hppne e.symm)]
          exact h2 hpos0 (pickChild heap (2 * pos + 1)) hm0 hb3 hparm
        · by_cases hpip : par i = pos
          · rw [hpip, prio_set_self heap pos _ h,
              prio_set_ne heap pos i _ (fun e => hip e.symm)]
            have hi_cases : i = 2 * pos + 1 ∨ i = 2 * pos + 2 :=
              par_child_cases hi hpip
            exact hmin i (by omega) hilen
          · rw [prio_set_ne heap pos i _ (fun e => hip e.symm),
              prio_set_ne heap pos (par i) _ (fun e => hpip e.symm)]
            exact h1 i hi hilen hip hpip
      · -- grandparent bound at the moved hole
        intro _ c hc0 hclen hparc
        rw [List.length_set] at hclen
        rw [hparm, prio_set_self heap pos _ h]
        have hcgt : pickChild heap (2 * pos + 1) < c := by
          have := par_child_gt hc0 hparc
          omega
        have hcp : c ≠ pos := by omega
        have hparc_ne : par c ≠ pos := by rw [hparc]; omega
        rw [prio_set_ne heap pos c _ (fun e => hcp e.symm)]
        have := h1 c hc0 hclen hcp hparc_ne
        rwa [hparc] at this
    · rw [if_neg hcond]
      exact ⟨by omega, h1⟩

theorem prio_append_left (l l₂ : List CloudResource) (i : Nat) (h : i < l.length) :
    prio (l ++ l₂) i = prio l i := by
  simp [prio, nthR_append_left l l₂ i h]

theorem siftdown_perm (heap : List CloudResource) (pos : Nat) (h : pos < heap.length) :
    ((siftdown heap 0 pos : List CloudResource) : Multiset CloudResource)
      = (heap : Multiset CloudResource) ∧
    (siftdown heap 0 pos).length = heap.length := by
  obtain ⟨d1, d2, d3⟩ := siftdownLoop_perm pos pos heap (nthR heap pos) h
  refine ⟨?_, ?_⟩
  · show (((siftdownLoop pos heap 0 pos (nthR heap pos)).1.set
      (siftdownLoop pos heap 0 pos (nthR heap pos)).2 (nthR heap pos) :
        List CloudResource) : Multiset CloudResource) = _
    rw [d3, set_nthR_self heap pos h]
  · show ((siftdownLoop pos heap 0 pos (nthR heap pos)).1.set
      (siftdownLoop pos heap 0 pos (nthR heap pos)).2 (nthR heap pos)).length = _
    rw [List.length_set, d2]

theorem siftdown_heap (heap : List CloudResource) (pos : Nat) (h : pos < heap.length)
    (h1 : HeapExcept heap pos)
    (h2 : 0 < pos → ChildrenGE heap pos (prio heap (par pos)))
    (h3 : ChildrenGE heap pos (prio heap pos)) :
    IsHeap (siftdown heap 0 pos) :=
  siftdownLoop_heap pos pos heap (nthR heap pos) (le_refl _) h h1 h2 h3

theorem heap_min (l : List CloudResource) (hl : IsHeap l) :
    ∀ i, i < l.length → prio l 0 ≤ prio l i := by
  intro i
  induction i using Nat.strong_induction_on with
  | _ i ih =>
    intro hi
    by_cases h0 : i = 0
    · rw [h0]
    · have hpos : 0 < i := Nat.pos_of_ne_zero h0
      have hpar := par_lt hpos
      exact le_trans (ih (par i) hpar (by omega)) (hl i hpos hi)

theorem siftup_perm (heap : List CloudResource) (h0 : 0 < heap.length) :
    ((siftup heap 0 : List CloudResource) : Multiset CloudResource)
      = (heap : Multiset CloudResource) ∧
    (siftup heap 0).length = heap.length := by
  obtain ⟨up1, up2, up3⟩ := siftupLoop_perm heap.length 0 heap h0
  have hposH : (siftupLoop heap.length heap 0).2
      < ((siftupLoop heap.length heap 0).1.set
        (siftupLoop heap.length heap 0).2 (nthR heap 0)).length := by
    rw [List.length_set]; exact up1
  obtain ⟨s1, s2⟩ := siftdown_perm ((siftupLoop heap.length heap 0).1.set
    (siftupLoop heap.length heap 0).2 (nthR heap 0)) (siftupLoop heap.length heap 0).2
    hposH
  constructor
  · show ((siftdown ((siftupLoop heap.length heap 0).1.set
      (siftupLoop heap.length heap 0).2 (nthR heap 0)) 0
      (siftupLoop heap.length heap 0).2 : List CloudResource) :
        Multiset CloudResource) = _
    rw [s1, up3, set_nthR_self heap 0 h0]
  · show (siftdown ((siftupLoop heap.length heap 0).1.set
      (siftupLoop heap.length heap 0).2 (nthR heap 0)) 0
      (siftupLoop heap.length heap 0).2).length = _
    rw [s2, List.length_set, up2]

theorem siftup_heap (heap : List CloudResource) (h0 : 0 < heap.length)
    (h1 : HeapExcept heap 0) : IsHeap (siftup heap 0) := by
  obtain ⟨up1, up2, _⟩ := siftupLoop_perm heap.length 0 heap h0
  obtain ⟨hleaf, hex⟩ := siftupLoop_heap heap.length 0 heap (by omega) h0 h1
    (fun hcontra => absurd hcontra (by omega))
  have hposH : (siftupLoop heap.length heap 0).2
      < ((siftupLoop heap.length heap 0).1.set
        (siftupLoop heap.length heap 0).2 (nthR heap 0)).length := by
    rw [List.length_set]; exact up1
  show IsHeap (siftdown ((siftupLoop heap.length heap 0).1.set
    (siftupLoop heap.length heap 0).2 (nthR heap 0)) 0
    (siftupLoop heap.length heap 0).2)
  apply siftdown_heap _ _ hposH
  · intro i hi hilen hine hparne
    rw [List.length_set] at hilen
    rw [prio_set_ne _ _ i _ (Ne.symm hine), prio_set_ne _ _ (par i) _ (Ne.symm hparne)]
    exact hex i hi hilen hine hparne
  · intro _ c hc0 hclen hparc
    exfalso
    rw [List.length_set, up2] at hclen
    have hcc := par_child_cases hc0 hparc
    omega
  · intro c hc0 hclen hparc
    exfalso
    rw [List.length_set, up2] at hclen
    have hcc := par_child_cases hc0 hparc
    omega

theorem heappush_perm (l : List CloudResource) (x : CloudResource) :
    ((heappush l x : List CloudResource) : Multiset CloudResource)
      = x ::ₘ (l : Multiset CloudResource) ∧
    (heappush l x).length = l.length + 1 := by
  have hlen : (l ++ [x]).length.pred = l.length := by simp
  have hx : l.length < (l ++ [x]).length := by simp
  obtain ⟨p1, p2⟩ := siftdown_perm (l ++ [x]) l.length hx
  constructor
  · show ((siftdown (l ++ [x]) 0 (l ++ [x]).length.pred : List CloudResource) :
      Multiset CloudResource) = _
    rw [hlen, p1, ← Multiset.coe_add, Multiset.coe_singleton, add_comm,
      Multiset.singleton_add]
  · show (siftdown (l ++ [x]) 0 (l ++ [x]).length.pred).length = _
    rw [hlen, p2]; simp

theorem heappush_heap (l : List CloudResource) (x : CloudResource) (hl : IsHeap l) :
    IsHeap (heappush l x) := by
  have hlen : (l ++ [x]).length.pred = l.length := by simp
  have hx : l.length < (l ++ [x]).length := by simp
  show IsHeap (siftdown (l ++ [x]) 0 (l ++ [x]).length.pred)
  rw [hlen]
  apply siftdown_heap _ _ hx
  · intro i hi hilen hine hparne
    have hil : i < l.length := by simp at hilen; omega
    have hpar : par i < l.length := by have := par_lt hi; omega
    rw [prio_append_left l [x] i hil, prio_append_left l [x] (par i) hpar]
    exact hl i hi hil
  · intro _ c hc0 hclen hparc
    exfalso
    have hcc := par_child_cases hc0 hparc
    simp at hclen
    omega
  · intro c hc0 hclen hparc
    exfalso
    have hcc := par_child_cases hc0 hparc
    simp at hclen
    omega

theorem heappop_nil : heappop [] = none := rfl

theorem heappop_perm (l : List CloudResource) (r : CloudResource)
    (res : List CloudResource) (h : heappop l = some (r, res)) :
    ((res : List CloudResource) : Multiset CloudResource) + {r}
      = (l : Multiset CloudResource) ∧ res.length + 1 = l.length := by
  rcases l.eq_nil_or_concat with rfl | ⟨L, a, rfl⟩
  · simp [heappop] at h
  · rw [List.concat_eq_append] at h ⊢
    unfold heappop at h
    rw [show (L ++ [a]).getLast? = some a from by simp,
      show (L ++ [a]).dropLast = L from by simp] at h
    dsimp only at h
    by_cases hL : L.isEmpty
    · rw [if_pos hL] at h
      have hLnil : L = [] := by
        cases L with
        | nil => rfl
        | cons b t => simp at hL
      subst hLnil
      simp only [Option.some.injEq, Prod.mk.injEq] at h
      obtain ⟨h1, h2⟩ := h
      subst h1
      subst h2
      simp
    · rw [if_neg hL] at h
      have hpos : 0 < L.length := by
        cases L with
        | nil => simp at hL
        | cons b t => simp
      simp at h
      obtain ⟨h1, h2⟩ := h
      obtain ⟨s1, s2⟩ := siftup_perm (L.set 0 a) (by rw [List.length_set]; exact hpos)
      constructor
      · rw [← h2, s1, ← h1]
        have e := coe_set_add L 0 a hpos
        rw [e, ← Multiset.coe_add, Multiset.coe_singleton]
      · rw [← h2, s2, List.length_set]
        simp

theorem heappop_heap (l : List CloudResource) (hl : IsHeap l) (r : CloudResource)
    (res : List CloudResource) (h : heappop l = some (r, res)) :
    IsHeap res ∧ ∀ x ∈ res, r.priority ≤ x.priority := by
  have hperm := (heappop_perm l r res h).1
  rcases l.eq_nil_or_concat with rfl | ⟨L, a, rfl⟩
  · simp [heappop] at h
  · rw [List.concat_eq_append] at h hl hperm
    unfold heappop at h
    rw [show (L ++ [a]).getLast? = some a from by simp,
      show (L ++ [a]).dropLast = L from by simp] at h
    dsimp only at h
    by_cases hL : L.isEmpty
    · rw [if_pos hL] at h
      have hLnil : L = [] := by
        cases L with
        | nil => rfl
        | cons b t => simp at hL
      subst hLnil
      simp only [Option.some.injEq, Prod.mk.injEq] at h
      obtain ⟨h1, h2⟩ := h
      subst h1; subst h2
      exact ⟨fun i hi hilen => by simp at hilen, fun x hx => by simp at hx⟩
    · rw [if_neg hL] at h
      have hpos : 0 < L.length := by
        cases L with
        | nil => simp at hL
        | cons b t => simp
      simp only [Option.some.injEq, Prod.mk.injEq] at h
      obtain ⟨h1, h2⟩ := h
      constructor
      · rw [← h2]
        apply siftup_heap _ (by rw [List.length_set]; exact hpos)
        intro i hi hilen hine hparne
        rw [List.length_set] at hilen
        rw [prio_set_ne L 0 i a (Ne.symm hine),
          prio_set_ne L 0 (par i) a (Ne.symm hparne)]
        have e1 : prio (L ++ [a]) i = prio L i := prio_append_left L [a] i hilen
        have e2 : prio (L ++ [a]) (par i) = prio L (par i) :=
          prio_append_left L [a] (par i) (by have := par_lt hi; omega)
        have hedge := hl i hi (by simp; omega)
        rw [e1, e2] at hedge
        exact hedge
      · intro x hx
        have hxl : x ∈ L ++ [a] := by
          have hm : x ∈ (res : Multiset CloudResource) := Multiset.mem_coe.mpr hx
          have hmm : x ∈ (res : Multiset CloudResource) + {r} :=
            Multiset.mem_add.mpr (Or.inl hm)
          rw [hperm] at hmm
          exact Multiset.mem_coe.mp hmm
        obtain ⟨i, hi, hnth⟩ := mem_nthR _ x hxl
        have hmin := heap_min (L ++ [a]) hl i hi
        have hr0 : r.priority = prio (L ++ [a]) 0 := by
          rw [← h1]
          have e0 : nthR (L ++ [a]) 0 = nthR L 0 := nthR_append_left L [a] 0 hpos
          simp [prio, e0]
        rw [hr0]
        have hxp : prio (L ++ [a]) i = x.priority := by simp [prio, hnth]
        rw [← hxp]
        exact hmin

/-! ### Draining, reinsertion, reachability -/

theorem heappop_length (l : List CloudResource) (r : CloudResource)
    (res : List CloudResource) (h : heappop l = some (r, res)) :
    res.length + 1 = l.length :=
  (heappop_perm l r res h).2

theorem drainAux_perm : ∀ (fuel : Nat) (heap : List CloudResource),
    heap.length ≤ fuel →
    ((drainAux fuel heap : List CloudResource) : Multiset CloudResource)
      = (heap : Multiset CloudResource) := by
  intro fuel
  induction fuel with
  | zero =>
    intro heap h
    have hnil : heap = [] := List.length_eq_zero.mp (by omega)
    subst hnil; rfl
  | succ fuel ih =>
    intro heap h
    rw [drainAux]
    cases hp : heappop heap with
    | none =>
      have hnil : heap = [] := by
        rcases heap.eq_nil_or_concat with rfl | ⟨L, a, rfl⟩
        · rfl
        · rw [List.concat_eq_append] at hp
          unfold heappop at hp
          rw [show (L ++ [a]).getLast? = some a from by simp] at hp
          dsimp only at hp
          split at hp <;> simp at hp
      subst hnil; rfl
    | some pr =>
      obtain ⟨r, rest⟩ := pr
      dsimp only
      have hlen := heappop_length heap r rest hp
      have hperm := (heappop_perm heap r rest hp).1
      rw [← Multiset.cons_coe, ih rest (by omega), ← Multiset.singleton_add,
        add_comm, hperm]

theorem drainAux_subset : ∀ (fuel : Nat) (heap : List CloudResource)
    (x : CloudResource), x ∈ drainAux fuel heap → x ∈ heap := by
  intro fuel
  induction fuel with
  | zero => intro heap x hx; simp [drainAux] at hx
  | succ fuel ih =>
    intro heap x hx
    rw [drainAux] at hx
    cases hp : heappop heap with
    | none => rw [hp] at hx; simp at hx
    | some pr =>
      obtain ⟨r, rest⟩ := pr
      rw [hp] at hx
      dsimp only at hx
      have hperm := (heappop_perm heap r rest hp).1
      rcases List.mem_cons.mp hx with rfl | hx
      · have hm : x ∈ (rest : Multiset CloudResource) + {x} :=
          Multiset.mem_add.mpr (Or.inr (Multiset.mem_singleton_self x))
        rw [hperm] at hm
        exact Multiset.mem_coe.mp hm
      · have hxr : x ∈ rest := ih rest x hx
        have hm : x ∈ (rest : Multiset CloudResource) + {r} :=
          Multiset.mem_add.mpr (Or.inl (Multiset.mem_coe.mpr hxr))
        rw [hperm] at hm
        exact Multiset.mem_coe.mp hm

theorem drainAux_sorted : ∀ (fuel : Nat) (heap : List CloudResource),
    IsHeap heap → List.Sorted rle (drainAux fuel heap) := by
  intro fuel
  induction fuel with
  | zero => intro heap _; simp [drainAux]
  | succ fuel ih =>
    intro heap hl
    rw [drainAux]
    cases hp : heappop heap with
    | none => simp
    | some pr =>
      obtain ⟨r, rest⟩ := pr
      dsimp only
      rw [List.sorted_cons]
      obtain ⟨hheap, hmin⟩ := heappop_heap heap hl r rest hp
      exact ⟨fun b hb => hmin b (drainAux_subset fuel rest b hb), ih rest hheap⟩

theorem foldl_heappush_perm : ∀ (l acc : List CloudResource),
    ((l.foldl heappush acc : List CloudResource) : Multiset CloudResource)
      = (acc : Multiset CloudResource) + (l : Multiset CloudResource) := by
  intro l
  induction l with
  | nil => intro acc; simp
  | cons x t ih =>
    intro acc
    rw [List.foldl_cons, ih, (heappush_perm acc x).1, ← Multiset.cons_coe,
      ← Multiset.singleton_add, ← Multiset.singleton_add]
    abel

theorem isHeap_nil : IsHeap [] := fun _ _ hi => by simp at hi

theorem foldl_heappush_isHeap : ∀ (l acc : List CloudResource),
    IsHeap acc → IsHeap (l.foldl heappush acc) := by
  intro l
  induction l with
  | nil => intro acc h; exact h
  | cons x t ih => intro acc h; exact ih _ (heappush_heap acc x h)

theorem foldl_heappush_mem (l acc : List CloudResource) (x : CloudResource)
    (hx : x ∈ l.foldl heappush acc) : x ∈ acc ∨ x ∈ l := by
  have h := foldl_heappush_perm l acc
  have hm : x ∈ (acc : Multiset CloudResource) + (l : Multiset CloudResource) := by
    rw [← h]; exact Multiset.mem_coe.mpr hx
  rcases Multiset.mem_add.mp hm with hm | hm
  · exact Or.inl (Multiset.mem_coe.mp hm)
  · exact Or.inr (Multiset.mem_coe.mp hm)

theorem mem_heappush (l : List CloudResource) (x y : CloudResource)
    (hy : y ∈ heappush l x) : y = x ∨ y ∈ l := by
  have h := (heappush_perm l x).1
  have hm : y ∈ x ::ₘ (l : Multiset CloudResource) := by
    rw [← h]; exact Multiset.mem_coe.mpr hy
  rcases Multiset.mem_cons.mp hm with hm | hm
  · exact Or.inl hm
  · exact Or.inr (Multiset.mem_coe.mp hm)

theorem siftdownLoop_stop (fuel pos : Nat) (heap : List CloudResource)
    (v : CloudResource) (hstop : rlt v (nthR heap (par pos)) = false) :
    siftdownLoop fuel heap 0 pos v = (heap, pos) := by
  cases fuel with
  | zero => rfl
  | succ fuel =>
    rw [siftdownLoop]
    by_cases h0 : 0 < pos
    · rw [if_pos h0, hstop]
      simp
    · rw [if_neg h0]

theorem heappush_of_le (l : List CloudResource) (x : CloudResource)
    (h : ∀ y ∈ l, y.priority ≤ x.priority) : heappush l x = l ++ [x] := by
  have hlen : (l ++ [x]).length.pred = l.length := by simp
  have hv : nthR (l ++ [x]) l.length = x := nthR_append_self l x
  have hstop : rlt x (nthR (l ++ [x]) (par l.length)) = false := by
    by_cases h0 : 0 < l.length
    · have hpp : par l.length < l.length := par_lt h0
      rw [nthR_append_left l [x] _ hpp]
      have := h _ (nthR_mem l _ hpp)
      simp [rlt]; omega
    · have hnil : l = [] := List.length_eq_zero.mp (by omega)
      subst hnil
      simp [rlt, par, nthR]
  show siftdown (l ++ [x]) 0 (l ++ [x]).length.pred = l ++ [x]
  rw [hlen]
  unfold siftdown
  rw [hv, siftdownLoop_stop l.length l.length (l ++ [x]) x hstop]
  dsimp only
  have hset := set_nthR_self (l ++ [x]) l.length (by simp)
  rwa [hv] at hset

theorem foldl_heappush_sorted : ∀ (l acc : List CloudResource),
    List.Sorted rle (acc ++ l) → l.foldl heappush acc = acc ++ l := by
  intro l
  induction l with
  | nil => intro acc _; simp
  | cons x t ih =>
    intro acc hs
    rw [List.foldl_cons]
    have hle : ∀ y ∈ acc, y.priority ≤ x.priority := by
      intro y hy
      exact (List.pairwise_append.mp hs).2.2 y hy x (by simp)
    rw [heappush_of_le acc x hle]
    have hs' : List.Sorted rle ((acc ++ [x]) ++ t) := by
      rw [List.append_assoc, List.singleton_append]
      exact hs
    rw [ih (acc ++ [x]) hs', List.append_assoc, List.singleton_append]

theorem deallocDrain_eq_filter : ∀ (fuel : Nat) (heap : List CloudResource)
    (rname : String),
    deallocDrain fuel heap rname
      = ((drainAux fuel heap).filter (fun r => decide (r.name = rname)),
         (drainAux fuel heap).filter (fun r => ! decide (r.name = rname))) := by
  intro fuel
  induction fuel with
  | zero => intro heap rname; rfl
  | succ fuel ih =>
    intro heap rname
    rw [deallocDrain, drainAux]
    cases hp : heappop heap with
    | none => rfl
    | some pr =>
      obtain ⟨r, rest⟩ := pr
      dsimp only
      rw [ih rest rname]
      by_cases hname : r.name = rname
      · simp [hname, List.filter_cons]
      · simp [hname, List.filter_cons]

theorem deallocate_queue (heap : List CloudResource) (rname : String) :
    (deallocate_resource heap rname).2
      = ((drainList heap).filter (fun r => ! decide (r.name = rname))).foldl
          heappush [] := by
  show ((deallocDrain heap.length heap rname).2).foldl heappush [] = _
  rw [deallocDrain_eq_filter heap.length heap rname]
  rfl

theorem deallocate_ret (heap : List CloudResource) (rname : String) :
    (deallocate_resource heap rname).1
      = ((drainList heap).filter (fun r => decide (r.name = rname))).getLast?.map
          (fun r => { r with allocated := false }) := by
  show ((deallocDrain heap.length heap rname).1).getLast?.map _ = _
  rw [deallocDrain_eq_filter heap.length heap rname]
  rfl

theorem reach_isHeap (q : List CloudResource) (hq : ReachableQueue q) : IsHeap q := by
  induction hq with
  | nil => exact isHeap_nil
  | alloc hq r ih =>
    unfold allocate_resource
    split
    · exact ih
    · exact heappush_heap _ _ ih
  | dealloc hq rname ih =>
    show IsHeap (((deallocDrain _ _ rname).2).foldl heappush [])
    exact foldl_heappush_isHeap _ [] isHeap_nil

theorem deallocate_sorted_of_isHeap (q : List CloudResource) (hq : IsHeap q)
    (rname : String) : List.Sorted rle (deallocate_resource q rname).2 := by
  rw [deallocate_queue q rname]
  have hsorted : List.Sorted rle (drainList q) := drainAux_sorted q.length q hq
  have hfiltered : List.Sorted rle
      ((drainList q).filter (fun r => ! decide (r.name = rname))) :=
    List.Pairwise.filter _ hsorted
  rw [foldl_heappush_sorted _ [] (by simpa using hfiltered)]
  simpa using hfiltered

/-! ### The fingerprint builder -/

theorem drop_eq_getD_cons : ∀ (l : List String) (j : Nat), j < l.length →
    l.drop j = l.getD j "" :: l.drop (j + 1) := by
  intro l
  induction l with
  | nil => intro j h; simp at h
  | cons a t ih =>
    intro j h
    cases j with
    | zero => simp
    | succ j => simpa using ih j (by simpa using h)

theorem collapseCodeAux_eq_spec (hash : String → String) :
    ∀ (fuel j : Nat) (tree : List String), tree.length ≤ 2 * fuel + j →
      collapseCodeAux hash tree tree.length fuel j
        = specCollapse hash (tree.drop j) := by
  intro fuel
  induction fuel with
  | zero =>
    intro j tree h
    rw [collapseCodeAux, List.drop_eq_nil_of_le (by omega)]
    rfl
  | succ fuel ih =>
    intro j tree h
    rw [collapseCodeAux]
    by_cases hj : j < tree.length
    · rw [if_pos hj]
      by_cases hj1 : j + 1 < tree.length
      · rw [if_pos hj1, ih (j + 2) tree (by omega),
          drop_eq_getD_cons tree j hj, drop_eq_getD_cons tree (j + 1) hj1]
        rfl
      · rw [if_neg hj1, ih (j + 2) tree (by omega),
          drop_eq_getD_cons tree j hj,
          show List.drop (j + 1) tree = [] from List.drop_eq_nil_of_le (by omega),
          show List.drop (j + 2) tree = [] from List.drop_eq_nil_of_le (by omega)]
        simp [specCollapse]
    · rw [if_neg hj, List.drop_eq_nil_of_le (by omega)]
      rfl

theorem specCollapse_length (hash : String → String) :
    ∀ (n : Nat) (l : List String), l.length = n →
      (specCollapse hash l).length = (l.length + 1) / 2 := by
  intro n
  induction n using Nat.strong_induction_on with
  | _ n ih =>
    intro l hl
    rcases l with _ | ⟨x, _ | ⟨y, rest⟩⟩
    · simp [specCollapse]
    · simp [specCollapse]
    · rw [specCollapse]
      have hr := ih rest.length (by simp at hl; omega) rest rfl
      simp only [List.length_cons, hr]
      omega

theorem buildLoop_eq_spec (hash : String → String) :
    ∀ (fuel : Nat) (tree : List String), tree ≠ [] → tree.length ≤ fuel + 1 →
      buildLoop fuel hash tree = specReduce fuel hash tree := by
  intro fuel
  induction fuel with
  | zero =>
    intro tree hne h
    rcases tree with _ | ⟨x, t⟩
    · exact absurd rfl hne
    · have ht : t = [] := by
        apply List.length_eq_zero.mp
        simp only [List.length_cons] at h
        omega
      subst ht
      rfl
  | succ fuel ih =>
    intro tree hne h
    rw [buildLoop]
    by_cases hlen : tree.length > 1
    · rw [if_pos hlen]
      rcases tree with _ | ⟨x, _ | ⟨y, rest⟩⟩
      · exact absurd rfl hne
      · simp at hlen
      · rw [collapseCodeAux_eq_spec hash (x :: y :: rest).length 0 (x :: y :: rest)
          (by omega), List.drop_zero]
        have hne' : specCollapse hash (x :: y :: rest) ≠ [] := by
          rw [specCollapse]; simp
        have hlen' : (specCollapse hash (x :: y :: rest)).length ≤ fuel + 1 := by
          rw [specCollapse_length hash (x :: y :: rest).length _ rfl]
          simp only [List.length_cons] at h ⊢
          omega
        rw [ih (specCollapse hash (x :: y :: rest)) hne' hlen']
        rw [specReduce]
    · rw [if_neg hlen]
      rcases tree with _ | ⟨x, _ | ⟨y, rest⟩⟩
      · exact absurd rfl hne
      · rfl
      · simp at hlen

theorem build_tree_eq_specBuild (hash : String → String) (l : List String)
    (h : l ≠ []) : build_tree hash l = specBuild hash l := by
  unfold build_tree specBuild
  have hmap : (l.map hash) ≠ [] := by
    intro hc
    exact h (List.map_eq_nil.mp hc)
  exact buildLoop_eq_spec hash l.length (l.map hash) hmap (by simp)

theorem buildLoop_isSome (hash : String → String) :
    ∀ (fuel : Nat) (tree : List String), tree ≠ [] →
      ∃ r, buildLoop fuel hash tree = some r := by
  intro fuel
  induction fuel with
  | zero =>
    intro tree hne
    rcases tree with _ | ⟨x, t⟩
    · exact absurd rfl hne
    · exact ⟨x, rfl⟩
  | succ fuel ih =>
    intro tree hne
    rw [buildLoop]
    by_cases hlen : tree.length > 1
    · rw [if_pos hlen]
      rcases tree with _ | ⟨x, _ | ⟨y, rest⟩⟩
      · exact absurd rfl hne
      · simp at hlen
      · rw [collapseCodeAux_eq_spec hash (x :: y :: rest).length 0 (x :: y :: rest)
          (by omega), List.drop_zero]
        apply ih
        rw [specCollapse]
        simp
    · rw [if_neg hlen]
      rcases tree with _ | ⟨x, t⟩
      · exact absurd rfl hne
      · exact ⟨x, rfl⟩

theorem build_tree_isSome (hash : String → String) (l : List String) (h : l ≠ []) :
    ∃ r, build_tree hash l = some r := by
  unfold build_tree
  apply buildLoop_isSome
  intro hc
  exact h (List.map_eq_nil.mp hc)

theorem build_tree_nil (hash : String → String) : build_tree hash [] = none := rfl

theorem drainList_perm (q : List CloudResource) :
    ((drainList q : List CloudResource) : Multiset CloudResource)
      = (q : Multiset CloudResource) :=
  drainAux_perm q.length q (le_refl _)

/-! ### The claims -/

/-- C1: for every allocator state with a non-empty registry, building the
Merkle snapshot and then immediately verifying it with no mutation in between
returns true (and prints nothing): the stored root equals the root recomputed
from the same enumeration order. -/
theorem build_then_verify_true (hash : String → String) (s s' : AllocatorState)
    (hne : s.queue ≠ []) (hb : build_merkle_tree hash s = some s') :
    verify_merkle_tree hash s' = ([], some true) := by
  obtain ⟨root, hroot⟩ := build_tree_isSome hash (snapshotOrder s)
    (fun hc => hne (List.map_eq_nil.mp hc))
  unfold build_merkle_tree at hb
  rw [hroot] at hb
  simp only [Option.map_some', Option.some.injEq] at hb
  subst hb
  unfold verify_merkle_tree
  dsimp only
  rw [show snapshotOrder { s with merkle := some root } = snapshotOrder s from rfl,
    hroot]
  simp

/-- Witness for C1 at a concrete one-record registry with the identity digest. -/
theorem build_then_verify_true_witness :
    verify_merkle_tree (fun t => t)
      { queue := [⟨"A", 1, true⟩], merkle := some "A" } = ([], some true) :=
  build_then_verify_true (fun t => t)
    { queue := [⟨"A", 1, true⟩], merkle := none }
    { queue := [⟨"A", 1, true⟩], merkle := some "A" } (by decide) (by rfl)

/-- C2: for every non-empty ordered sequence of strings, the code's
`build_tree` produces exactly the root described by the spec's algorithm
(hash each item to form the leaf level, collapse adjacent pairs left to right
into digest(left || right) with an odd final node carried forward unchanged,
until one node remains). -/
theorem build_tree_matches_spec (hash : String → String) (l : List String)
    (h : l ≠ []) :
    ∃ r, build_tree hash l = some r ∧ specBuild hash l = some r := by
  obtain ⟨r, hr⟩ := build_tree_isSome hash l h
  refine ⟨r, hr, ?_⟩
  rw [← build_tree_eq_specBuild hash l h]
  exact hr

/-- Witness for C2 at a three-element (odd) sequence with the identity digest. -/
theorem build_tree_matches_spec_witness :
    ∃ r, build_tree (fun t => t) ["a", "b", "c"] = some r ∧
      specBuild (fun t => t) ["a", "b", "c"] = some r :=
  build_tree_matches_spec (fun t => t) ["a", "b", "c"] (by decide)

/-- Counterexample to C3 as stated: `allocate("X", 1)` twice through the menu
builds a fresh record each time, so the second call inserts a second record —
the registry holds two records named "X", not exactly one. -/
theorem allocate_twice_two_records :
    (menuAllocate (menuAllocate initialState "X" 1) "X" 1).queue
      = [⟨"X", 1, true⟩, ⟨"X", 1, true⟩] := by decide

/-- C3 amended: `allocate_resource` is a no-op exactly when the passed
record's `allocated` flag is already true (it returns `None`, not a boolean,
in every case); the menu-level `allocate("X", 1)` constructs a fresh
unallocated record per call, so calling it twice leaves two allocated records
named "X" in the registry. -/
theorem allocate_noop_iff_flag (q : List CloudResource) (r : CloudResource)
    (h : r.allocated = true) :
    allocate_resource q r = q ∧
    ((menuAllocate (menuAllocate initialState "X" 1) "X" 1).queue.length = 2 ∧
      ∀ x ∈ (menuAllocate (menuAllocate initialState "X" 1) "X" 1).queue,
        x.name = "X" ∧ x.allocated = true) := by
  refine ⟨?_, by decide, by decide⟩
  unfold allocate_resource
  rw [if_pos h]

/-- Witness for C3's amended claim: allocating an already-allocated record is
a no-op on the empty registry. -/
theorem allocate_noop_iff_flag_witness :
    allocate_resource [] ⟨"A", 2, true⟩ = [] :=
  (allocate_noop_iff_flag [] ⟨"A", 2, true⟩ rfl).1

/-- Counterexample to C4 as stated: with two records named "X" in the
registry, one deallocate("X") call removes BOTH — zero matching records
remain, not one — and returns only the last-extracted match. -/
theorem dealloc_duplicates_removes_all :
    ((deallocate_resource [⟨"X", 1, true⟩, ⟨"X", 2, true⟩] "X").2).countP
        (fun r => r.name == "X") = 0 ∧
    (deallocate_resource [⟨"X", 1, true⟩, ⟨"X", 2, true⟩] "X").1
      = some ⟨"X", 2, false⟩ := by decide

/-- C4 amended: deallocate(name) removes EVERY record whose name matches (no
matching record remains in the registry), and when at least one match exists
it returns the last-extracted match with its allocated flag cleared; the
other matches are dropped without being returned. -/
theorem dealloc_removes_all_matches (q : List CloudResource) (rname : String) :
    (∀ r ∈ (deallocate_resource q rname).2, ¬ r.name = rname) ∧
    ((∃ r ∈ q, r.name = rname) →
      ∃ ret, (deallocate_resource q rname).1 = some ret ∧
        ret.name = rname ∧ ret.allocated = false) := by
  constructor
  · intro r hr
    rw [deallocate_queue q rname] at hr
    rcases foldl_heappush_mem _ [] r hr with hr | hr
    · simp at hr
    · have := List.of_mem_filter hr
      simpa using this
  · intro ⟨r0, hr0, hname0⟩
    rw [deallocate_ret q rname]
    have hmem : r0 ∈ drainList q := by
      have hm : r0 ∈ ((drainList q : List CloudResource) : Multiset CloudResource) := by
        rw [drainList_perm q]
        exact Multiset.mem_coe.mpr hr0
      exact Multiset.mem_coe.mp hm
    have hfil : r0 ∈ (drainList q).filter (fun r => decide (r.name = rname)) :=
      List.mem_filter.mpr ⟨hmem, by simpa using hname0⟩
    cases hL : ((drainList q).filter (fun r => decide (r.name = rname))).getLast? with
    | none =>
      exfalso
      cases hfl : (drainList q).filter (fun r => decide (r.name = rname)) with
      | nil => rw [hfl] at hfil; simp at hfil
      | cons a t =>
        rw [hfl] at hL
        rcases (a :: t).eq_nil_or_concat with hcon | ⟨L, b, hcon⟩
        · simp at hcon
        · rw [hcon, List.concat_eq_append] at hL
          simp at hL
    | some last =>
      have h1 : last ∈ ((drainList q).filter
          (fun r => decide (r.name = rname))).getLast? := by rw [hL]; rfl
      obtain ⟨hne', heq⟩ := List.mem_getLast?_eq_getLast h1
      have hlast_mem : last ∈ (drainList q).filter (fun r => decide (r.name = rname)) :=
        heq ▸ List.getLast_mem hne'
      have hlast_name : last.name = rname := by
        simpa using List.of_mem_filter hlast_mem
      exact ⟨{ last with allocated := false }, rfl, hlast_name, rfl⟩

/-- Witness for C4's amended claim at a concrete single-match registry. -/
theorem dealloc_removes_all_matches_witness :
    (∀ r ∈ (deallocate_resource [⟨"X", 1, true⟩] "X").2, ¬ r.name = "X") ∧
    (∃ ret, (deallocate_resource [⟨"X", 1, true⟩] "X").1 = some ret ∧
      ret.name = "X" ∧ ret.allocated = false) :=
  ⟨(dealloc_removes_all_matches [⟨"X", 1, true⟩] "X").1,
    (dealloc_removes_all_matches [⟨"X", 1, true⟩] "X").2
      ⟨⟨"X", 1, true⟩, by decide, rfl⟩⟩

/-- Counterexample to C5 as stated: deallocating the absent name "Z" returns
none, but the drain-and-reinsert rebuilds the backing array in priority
order, changing the observable enumeration from ["A", "B", "C"] to
["A", "C", "B"] — the state is not unchanged. -/
theorem dealloc_unknown_reorders :
    (deallocate_resource (allocate_resource (allocate_resource (allocate_resource []
        ⟨"A", 1, false⟩) ⟨"B", 3, false⟩) ⟨"C", 2, false⟩) "Z").1 = none ∧
    (allocate_resource (allocate_resource (allocate_resource []
        ⟨"A", 1, false⟩) ⟨"B", 3, false⟩) ⟨"C", 2, false⟩).map (fun r => r.name)
      = ["A", "B", "C"] ∧
    ((deallocate_resource (allocate_resource (allocate_resource (allocate_resource []
        ⟨"A", 1, false⟩) ⟨"B", 3, false⟩) ⟨"C", 2, false⟩) "Z").2).map
        (fun r => r.name)
      = ["A", "C", "B"] := by decide

/-- C5 amended: deallocate on a name matching no record returns none and
preserves the registry's records — names, priorities and allocated flags —
as a multiset, but it rebuilds the backing array in priority order, so the
enumeration order (and hence a previously built snapshot's verification) may
change. -/
theorem dealloc_unknown_noop_multiset (q : List CloudResource) (rname : String)
    (h : ∀ r ∈ q, ¬ r.name = rname) :
    (deallocate_resource q rname).1 = none ∧
    (((deallocate_resource q rname).2 : List CloudResource) : Multiset CloudResource)
      = (q : Multiset CloudResource) := by
  have hsub : ∀ r ∈ drainList q, ¬ r.name = rname := fun r hr =>
    h r (drainAux_subset q.length q r hr)
  constructor
  · rw [deallocate_ret q rname]
    have hfil : (drainList q).filter (fun r => decide (r.name = rname)) = [] := by
      apply List.filter_eq_nil.mpr
      intro a ha
      simpa using hsub a ha
    rw [hfil]
    rfl
  · rw [deallocate_queue q rname]
    have hfil : (drainList q).filter (fun r => ! decide (r.name = rname))
        = drainList q := by
      apply List.filter_eq_self.mpr
      intro a ha
      simpa using hsub a ha
    rw [hfil, foldl_heappush_perm, drainList_perm q]
    simp

/-- Witness for C5's amended claim at a concrete one-record registry. -/
theorem dealloc_unknown_noop_multiset_witness :
    (deallocate_resource [⟨"A", 1, true⟩] "Z").1 = none ∧
    (((deallocate_resource [⟨"A", 1, true⟩] "Z").2 : List CloudResource) :
        Multiset CloudResource)
      = (([⟨"A", 1, true⟩] : List CloudResource) : Multiset CloudResource) :=
  dealloc_unknown_noop_multiset [⟨"A", 1, true⟩] "Z" (by decide)

/-- Counterexample to C6 as stated: build a snapshot over a one-record
registry, deallocate that record, then verify: with a stored snapshot and an
empty registry, `verify_merkle_tree` recomputes the fingerprint of an empty
enumeration and crashes (IndexError on `tree[0]`, modeled `none`) instead of
returning the root comparison. -/
theorem verify_after_emptying_crashes :
    build_merkle_tree (fun t => t) (menuAllocate initialState "X" 1)
      = some { queue := [⟨"X", 1, true⟩], merkle := some "X" } ∧
    verify_merkle_tree (fun t => t)
      (op_deallocate { queue := [⟨"X", 1, true⟩], merkle := some "X" } "X").2
      = ([], none) := by decide

/-- C6 amended: verify with no snapshot prints the distinguishable message
"Merkle tree not built." and returns false without crashing; with a snapshot
and a non-empty registry it returns the stored-root comparison; with a
snapshot and an empty registry it crashes instead of returning. -/
theorem verify_snapshot_cases (hash : String → String) (s : AllocatorState) :
    (s.merkle = none →
      verify_merkle_tree hash s = (["Merkle tree not built."], some false)) ∧
    (∀ root, s.merkle = some root → s.queue ≠ [] →
      ∃ rc, build_tree hash (snapshotOrder s) = some rc ∧
        verify_merkle_tree hash s = ([], some (root == rc))) ∧
    (∀ root, s.merkle = some root → s.queue = [] →
      verify_merkle_tree hash s = ([], none)) := by
  refine ⟨?_, ?_, ?_⟩
  · intro h
    unfold verify_merkle_tree
    rw [h]
  · intro root h hne
    obtain ⟨rc, hrc⟩ := build_tree_isSome hash (snapshotOrder s)
      (fun hc => hne (List.map_eq_nil.mp hc))
    refine ⟨rc, hrc, ?_⟩
    unfold verify_merkle_tree
    rw [h]
    dsimp only
    rw [hrc]
    rfl
  · intro root h hq
    unfold verify_merkle_tree
    rw [h]
    dsimp only
    rw [show snapshotOrder s = [] from by unfold snapshotOrder; rw [hq]; rfl]
    rfl

/-- Witness for C6's amended claim: the non-empty-registry comparison branch
at a concrete state. -/
theorem verify_snapshot_cases_witness :
    ∃ rc, build_tree (fun t => t)
        (snapshotOrder { queue := [⟨"A", 1, true⟩], merkle := some "A" }) = some rc ∧
      verify_merkle_tree (fun t => t)
        { queue := [⟨"A", 1, true⟩], merkle := some "A" } = ([], some ("A" == rc)) :=
  (verify_snapshot_cases (fun t => t)
    { queue := [⟨"A", 1, true⟩], merkle := some "A" }).2.1 "A" rfl (by decide)

/-- Counterexample to C7 as stated: fingerprinting the empty registry is not
rejected and yields no sentinel — `MerkleTree([]).build_tree` evaluates
`tree[0]` on an empty list and raises an unhandled IndexError (modeled
`none`), aborting rather than recovering. -/
theorem build_empty_crashes :
    build_merkle_tree (fun t => t) initialState = none := rfl

/-- C7 amended: duplicate-allocate, not-found deallocate, and
verify-before-build are all locally recovered (no-op, none result, false
result), but fingerprinting an empty registry is an unhandled IndexError:
build_merkle_tree crashes on an empty registry. -/
theorem error_handling_cases :
    build_merkle_tree (fun t => t) initialState = none ∧
    verify_merkle_tree (fun t => t) initialState
      = (["Merkle tree not built."], some false) ∧
    deallocate_resource [] "X" = (none, []) ∧
    allocate_resource [⟨"X", 1, true⟩] ⟨"X", 1, true⟩ = [⟨"X", 1, true⟩] := by
  exact ⟨rfl, rfl, rfl, by decide⟩

/-- C8: the fingerprint builder is deterministic — two calls on the identical
ordered non-empty sequence produce the identical root (which exists). -/
theorem build_tree_deterministic (hash : String → String) (l₁ l₂ : List String)
    (hne : l₁ ≠ []) (heq : l₁ = l₂) :
    ∃ r, build_tree hash l₁ = some r ∧ build_tree hash l₂ = some r := by
  subst heq
  obtain ⟨r, hr⟩ := build_tree_isSome hash l₁ hne
  exact ⟨r, hr, hr⟩

/-- Witness for C8 at a concrete two-element sequence. -/
theorem build_tree_deterministic_witness :
    ∃ r, build_tree (fun t => t) ["a", "b"] = some r ∧
      build_tree (fun t => t) ["a", "b"] = some r :=
  build_tree_deterministic (fun t => t) ["a", "b"] ["a", "b"] (by decide) rfl

/-- Counterexample to C9 as stated: allocate two fresh records named "X"
(priorities 1 and 2), then deallocate "X" once.  Both records leave the
registry (it ends empty) though only the priority-2 record is returned with
its flag cleared; the priority-1 record was drained and dropped — it is no
longer present, was never "deallocated", and its allocated flag remains true. -/
theorem duplicate_dealloc_flag_leak :
    (deallocate_resource (allocate_resource (allocate_resource []
        ⟨"X", 1, false⟩) ⟨"X", 2, false⟩) "X").1 = some ⟨"X", 2, false⟩ ∧
    (deallocate_resource (allocate_resource (allocate_resource []
        ⟨"X", 1, false⟩) ⟨"X", 2, false⟩) "X").2 = [] ∧
    (deallocDrain (allocate_resource (allocate_resource []
        ⟨"X", 1, false⟩) ⟨"X", 2, false⟩).length
        (allocate_resource (allocate_resource []
          ⟨"X", 1, false⟩) ⟨"X", 2, false⟩) "X").1
      = [⟨"X", 1, true⟩, ⟨"X", 2, true⟩] := by decide

/-- C9 amended: in every reachable registry state every present record has
allocated = true, and any record returned by deallocate carries allocated =
false; but when several records share the deallocated name, one call removes
them all while returning only the last-extracted one, so a removed record can
keep allocated = true while absent. -/
theorem reachable_allocated_flag (q : List CloudResource) (hq : ReachableQueue q) :
    (∀ r ∈ q, r.allocated = true) ∧
    (∀ rname ret, (deallocate_resource q rname).1 = some ret →
      ret.allocated = false) := by
  constructor
  · induction hq with
    | nil => intro r hr; simp at hr
    | alloc hq r ih =>
      intro x hx
      unfold allocate_resource at hx
      split at hx
      · exact ih x hx
      · rcases mem_heappush _ _ x hx with rfl | hx
        · rfl
        · exact ih x hx
    | dealloc hq rname ih =>
      intro x hx
      rw [deallocate_queue] at hx
      rcases foldl_heappush_mem _ [] x hx with hx | hx
      · simp at hx
      · have hxd : x ∈ drainList _ := List.mem_of_mem_filter hx
        exact ih x (drainAux_subset _ _ x hxd)
  · intro rname ret hret
    rw [deallocate_ret q rname] at hret
    cases hL : ((drainList q).filter (fun r => decide (r.name = rname))).getLast? with
    | none => rw [hL] at hret; simp at hret
    | some last =>
      rw [hL] at hret
      simp only [Option.map_some', Option.some.injEq] at hret
      rw [← hret]

/-- Witness for C9's amended claim at a concrete reachable one-record state. -/
theorem reachable_allocated_flag_witness :
    (∀ r ∈ allocate_resource [] ⟨"X", 1, false⟩, r.allocated = true) ∧
    (∀ rname ret,
      (deallocate_resource (allocate_resource [] ⟨"X", 1, false⟩) rname).1
        = some ret → ret.allocated = false) :=
  reachable_allocated_flag (allocate_resource [] ⟨"X", 1, false⟩)
    (ReachableQueue.alloc ReachableQueue.nil ⟨"X", 1, false⟩)

/-- C10: after any deallocate call on any reachable registry state, the
backing array — the enumeration order observed via snapshotOrder and
listAllocatedNames and used as fingerprint leaves — lists the remaining
records in nondecreasing priority order: the drain pops in priority order
and reinserting a nondecreasing sequence appends each record without moving
any other. -/
theorem dealloc_result_sorted (q : List CloudResource) (hq : ReachableQueue q)
    (rname : String) : List.Sorted rle (deallocate_resource q rname).2 :=
  deallocate_sorted_of_isHeap q (reach_isHeap q hq) rname

/-- Witness for C10 at a concrete reachable two-record state. -/
theorem dealloc_result_sorted_witness :
    List.Sorted rle (deallocate_resource (allocate_resource (allocate_resource []
      ⟨"B", 2, false⟩) ⟨"A", 1, false⟩) "Z").2 :=
  dealloc_result_sorted
    (allocate_resource (allocate_resource [] ⟨"B", 2, false⟩) ⟨"A", 1, false⟩)
    (ReachableQueue.alloc (ReachableQueue.alloc ReachableQueue.nil ⟨"B", 2, false⟩)
      ⟨"A", 1, false⟩) "Z"
